import Mathlib

/-!
Verification development for the AxiomicAgent core: a shallow embedding of
the engine loop, signal computer, capacity policy, signal heads and insight
reporter, with theorems checking the specification's claims against it.

Modelling conventions, used throughout:

* Python floats are modelled as exact rationals (`ℚ`); the arithmetic in the
  embedded code paths stays within small rationals, so exact arithmetic is
  faithful.  Python's `round(x, 3)` (round-half-to-even at 3 decimals) is
  modelled by `round3` below.
* A frame (`adapters.base.Frame`) is a finite set of directed edges between
  integer node ids: `Finset (ℤ × ℤ)`.
* Python dicts of optional numeric step features are modelled as a structure
  of `Option ℚ` fields.  A feature that is absent, `None`, `NaN` (the code
  rejects `NaN` for `ted`) or of a non-numeric type is modelled as `none`.
* Where Python iterates over a `set` in unspecified (but deterministic)
  order, the model iterates in ascending lexicographic edge order; every
  property proved here is insensitive to that choice, and the code's own
  spec requires deterministic lexicographic iteration for the policy.
* Squared-distance comparisons replace `x ** 0.5 >= t`: for `s ≥ 0`,
  `sqrt s ≥ t  ↔  (t ≤ 0 ∨ t^2 ≤ s)`, which is how `decideChange` is stated.
-/

set_option maxRecDepth 1000000

/-- Round-half-to-even to an integer, the semantics of Python's `round`
on exact values (ties go to the even integer). -/
def rne (x : ℚ) : ℤ :=
  if Int.fract x < 1/2 then ⌊x⌋
  else if (1 : ℚ)/2 < Int.fract x then ⌊x⌋ + 1
  else if ⌊x⌋ % 2 = 0 then ⌊x⌋ else ⌊x⌋ + 1

/-- Python's `round(x, 3)`: round-half-to-even at the third decimal. -/
def round3 (x : ℚ) : ℚ := (rne (1000 * x) : ℚ) / 1000

/-- Python's `int(x)` on a (nonnegative or negative) number: truncation
toward zero, `Int.tdiv` of numerator by denominator. -/
def pyTrunc (x : ℚ) : ℤ := x.num.tdiv x.den

/-- Edges are ordered pairs of integer node ids (`core.policy.Edge`). -/
abbrev Edge := ℤ × ℤ

/-- A frame is the set of edges of one step (`adapters.base.Frame`). -/
abbrev Frame := Finset Edge

/-- The set of node ids incident to some edge of the frame
(`{node for edge in obs for node in edge}` in `signals.py`). -/
def nodesOf (obs : Frame) : Finset ℤ := obs.image Prod.fst ∪ obs.image Prod.snd

/-- Ascending lexicographic order on edges, the order produced by Python's
`sorted` on a set of `(src, dst)` tuples. -/
def elex (a b : Edge) : Prop := a.1 < b.1 ∨ (a.1 = b.1 ∧ a.2 ≤ b.2)

instance : DecidableRel elex := fun a b =>
  inferInstanceAs (Decidable (a.1 < b.1 ∨ (a.1 = b.1 ∧ a.2 ≤ b.2)))

instance : IsTrans Edge elex := ⟨by
  rintro ⟨a1, a2⟩ ⟨b1, b2⟩ ⟨c1, c2⟩ h g
  simp only [elex] at *
  omega⟩

instance : IsAntisymm Edge elex := ⟨by
  rintro ⟨a1, a2⟩ ⟨b1, b2⟩ h g
  simp only [elex] at *
  simp only [Prod.mk.injEq]
  omega⟩

instance : IsTotal Edge elex := ⟨by
  rintro ⟨a1, a2⟩ ⟨b1, b2⟩
  simp only [elex]
  omega⟩

/-- Python's `sorted` applied to a frame: its edges in ascending
lexicographic order. -/
def sortedEdges (s : Frame) : List Edge := s.sort elex

/-- The numeric step features read by `DefaultSignalComputer.compute` and
`_fallback_quality`.  Each field is `none` when the corresponding key is
absent from the `step_features` dict (or not a usable number). -/
structure Features where
  quality : Option ℚ
  ted : Option ℚ
  stability : Option ℚ
  weighted_node_mass : Option ℚ
  unique_node_count : Option ℚ
deriving DecidableEq

/-- A `step_features` dict with none of the numeric keys present. -/
def Features.empty : Features := ⟨none, none, none, none, none⟩

/-- The output record of `DefaultSignalComputer.compute`
(`core.signals.Signals`).  `spread` and `locality_nodes` are `None` under
the default `SignalConfig` (both flags off) and are modelled separately
(`computeSpread`); the claims below use them only through that function. -/
structure Signals where
  q : ℚ
  ted : ℚ
  stability : ℚ
  ted_delta : Option ℚ
deriving DecidableEq

/-- DefaultSignalComputer._fallback_quality: weighted-mass estimate when
`weighted_node_mass` and `unique_node_count` are usable, else incident-node
count over 25, and 0 for an empty frame. -/
def fallback_quality (obs : Frame) (f : Features) : ℚ :=
  if obs = ∅ then 0
  else
    match f.weighted_node_mass, f.unique_node_count with
    | some mass, some unique =>
        if 0 < unique then min 1 (mass / max 1 (unique * 2))
        else min 1 ((nodesOf obs).card / 25)
    | _, _ => min 1 ((nodesOf obs).card / 25)

/-- Jaccard distance between two edge sets, clamped to `[0, 1]`, with the
empty-denominator guards of `_fallback_ted` / `MonteCarloHead._compute_ted`. -/
def jaccardDistance (a b : Frame) : ℚ :=
  if a = ∅ ∧ b = ∅ then 0
  else
    if (a ∪ b).card = 0 then 0
    else max 0 (min 1 (1 - ((a ∩ b).card : ℚ) / ((a ∪ b).card : ℚ)))

/-- DefaultSignalComputer._fallback_ted: 0 on the first step, else the
clamped Jaccard distance to the previous observation. -/
def fallback_ted (obs : Frame) (prevObs : Option Frame) : ℚ :=
  match prevObs with
  | none => 0
  | some prev => jaccardDistance obs prev

/-- One call of `DefaultSignalComputer.compute`.  Input: the retained
`_prev_ted` state, the (cumulative) observation, the previous cumulative
observation and the step features.  Output: the `Signals` record and the
new `_prev_ted` state — the source stores the UNROUNDED ted
(`self._prev_ted = ted` before `round`). -/
def computeStep (prevTed : Option ℚ) (obs : Frame) (prevObs : Option Frame)
    (f : Features) : Signals × ℚ :=
  let qv := match f.quality with
    | some v => v
    | none => fallback_quality obs f
  let tedv := match f.ted with
    | some v => v
    | none => fallback_ted obs prevObs
  let stabv := match f.stability with
    | some v => v
    | none => max 0 (min 1 (1 - tedv))
  let delta := prevTed.map (fun p => round3 (tedv - p))
  (⟨round3 qv, round3 tedv, round3 stabv, delta⟩, tedv)

/-- The signal-computing part of `Engine.run`, threading the cumulative
frame (`cumulative = prev_cumulative ∪ obs_step`) and the signal computer's
`_prev_ted` state over a whole course.  Each list entry is one step's
observed frame with its step features; the result pairs each step's
`Signals` with the unrounded ted retained after that step. -/
def runFullAux : Option Frame → Option ℚ → List (Frame × Features) →
    List (Signals × ℚ)
  | _, _, [] => []
  | prevCum, prevTed, (obs, f) :: rest =>
      let cum := (prevCum.getD ∅) ∪ obs
      let out := computeStep prevTed cum prevCum f
      out :: runFullAux (some cum) (some out.2) rest

/-- A whole engine run's signal outputs, from the initial state
(`prev_cumulative = None`, `_prev_ted = None`). -/
def runFull (inputs : List (Frame × Features)) : List (Signals × ℚ) :=
  runFullAux none none inputs

/-- The aggregates computed by `InsightReporter.finish` (the numeric series
means; `avg_spread` is `None` when spread is never computed and is omitted
here). -/
structure Aggregates where
  avg_q : Option ℚ
  avg_ted : Option ℚ
  avg_stability : Option ℚ
deriving DecidableEq

/-- Mean of a recorded series, rounded to 3 decimals; `None` for an empty
series (`round(sum(s)/len(s), 3) if s else None`). -/
def avgOf (l : List ℚ) : Option ℚ :=
  if l = [] then none else some (round3 (l.sum / l.length))

/-- An engine run through the insight reporter: the per-step `Signals`
records and the final aggregates.  `InsightReporter.record` appends `q`,
`ted` and `s` to the series whenever they are numbers, which in this model
they always are. -/
def runInsight (inputs : List (Frame × Features)) : List Signals × Aggregates :=
  let sigs := (runFull inputs).map Prod.fst
  (sigs,
    ⟨avgOf (sigs.map Signals.q),
     avgOf (sigs.map Signals.ted),
     avgOf (sigs.map Signals.stability)⟩)

/-- Python truthiness of an optional float (`None` and `0.0` are falsy),
as used by the guards in `InsightReporter.finish`. -/
def pyTruthy : Option ℚ → Bool
  | none => false
  | some v => v != 0

/-- The recommendation block of `InsightReporter.finish`: the guards are
`aggregates.get("avg_ted") and avg_ted > 0.6` and
`aggregates.get("avg_q") and avg_q < 0.4`, so a `0.0` aggregate is falsy
and skips its branch; a nominal message is emitted when no other was. -/
def finishRecs (avg_q avg_ted : Option ℚ) : List String :=
  let recs : List String :=
    (if pyTruthy avg_ted ∧ 3/5 < avg_ted.getD 0 then
      ["High drift detected; schedule a review or escalation."] else [])
    ++
    (if pyTruthy avg_q ∧ avg_q.getD 0 < 2/5 then
      ["Quality is lagging; consider injecting higher-signal context."] else [])
  if recs = [] then ["System performing within expected ranges."] else recs

/-- The edge-filling loops of `CapacityPolicy.step`: add edges from `l` in
order, skipping the add (and continuing) once `bound` edges are selected.
Re-adding an edge already in `selected` leaves the set unchanged, exactly
as Python's `set.add`. -/
def fillUpTo (bound : ℕ) (l : List Edge) (sel : Frame) : Frame :=
  l.foldl (fun acc e => if bound ≤ acc.card then acc else insert e acc) sel

/-- CapacityPolicy._enforce_node_capacity: keep an edge unless both of its
endpoints have already reached `maxNodes` incident selected edges; the
per-node counters are incremented for each endpoint of a kept edge (twice
for a self-loop, as in the source). -/
def enforceStep (maxNodes : ℤ) (st : Frame × (ℤ → ℕ)) (e : Edge) :
    Frame × (ℤ → ℕ) :=
  if maxNodes ≤ (st.2 e.1 : ℤ) ∧ maxNodes ≤ (st.2 e.2 : ℤ) then st
  else
    (insert e st.1,
     fun n => st.2 n + (if n = e.1 then 1 else 0) + (if n = e.2 then 1 else 0))

/-- CapacityPolicy._enforce_node_capacity: fold `enforceStep` over the
edges (`max_nodes or 0` and the `<= 0` early return are the outer guard). -/
def enforceNodeCapacity (maxNodes : ℤ) (edges : Frame) : Frame :=
  if maxNodes ≤ 0 then edges
  else ((sortedEdges edges).foldl (enforceStep maxNodes) (∅, fun _ => 0)).1

/-- CapacityPolicy.step.  `maxEdges = none` models `max_edges=None`; the
guard `if not max_edges or max_edges <= 0` returns a copy of the observed
frame for `None` and for every `max_edges ≤ 0` (including 0).  Otherwise:
take up to `int(max_edges * sticky_fraction)` kept edges
(`prev_pred ∩ obs_t`, sorted), then new edges (`obs_t - prev_pred`, sorted)
up to `max_edges` total, then top up from the kept edges again; finally
apply the node-capacity filter when `max_nodes` is truthy. -/
def capacitySelect (m : ℤ) (sticky : ℚ) (prev obs : Frame) : Frame :=
  let stickySpace := pyTrunc (m * sticky)
  let inter := prev ∩ obs
  let newEdges := obs \ prev
  let sel1 := fillUpTo stickySpace.toNat (sortedEdges inter) ∅
  let sel2 := fillUpTo m.toNat (sortedEdges newEdges) sel1
  if sel2.card < m.toNat then fillUpTo m.toNat (sortedEdges inter) sel2
  else sel2

/-- CapacityPolicy.step with the selection stage factored out as
`capacitySelect`; `prev = prev_pred or set()`. -/
def capacityStep (maxEdges maxNodes : Option ℤ) (sticky : ℚ)
    (prevPred : Option Frame) (obs : Frame) : Frame :=
  match maxEdges with
  | none => obs
  | some m =>
    if m ≤ 0 then obs
    else
      let sel3 := capacitySelect m sticky (prevPred.getD ∅) obs
      match maxNodes with
      | none => sel3
      | some mn => if mn = 0 then sel3 else enforceNodeCapacity mn sel3

/-- IdentityPolicy.step returns a copy of the observed frame. -/
def identityStep (obs : Frame) : Frame := obs

/-- The names in `core.engine.HEAD_REGISTRY`. -/
def headRegistryNames : List String := ["monte_carlo", "forecast", "regime_change"]

/-- The head-resolution and registry checks of `Engine.__init__`: an
unregistered adapter or reporter raises `ValueError`; the configured head
names are then resolved with `HEAD_REGISTRY.get(name)` and a missing head
class is silently skipped (`if cls:`), never an error.  The result is the
list of head names actually instantiated, in declaration order. -/
def engineInitModel (adapters reporters : List String)
    (adapter reporter : String) (heads : List String) :
    Except String (List String) :=
  if adapter ∉ adapters then .error ("Adapter not registered")
  else if reporter ∉ reporters then .error ("Reporter not registered")
  else .ok (heads.filter (fun h => headRegistryNames.contains h))

/-- The feature vector recorded by `RegimeChangeHead.per_step` (the `t` key
is stored but excluded from `_average` and `_l2_distance`, which iterate
the five metric keys only). -/
structure FeatVec where
  t : ℕ
  q : ℚ
  ted : ℚ
  concept_fraction : ℚ
  assessment_fraction : ℚ
  reading_fraction : ℚ
deriving DecidableEq

/-- The five metric means of `RegimeChangeHead._average` over a window.
Division by zero (an empty window, reachable only for `window = 0`, where
the Python code raises instead) yields 0 under `ℚ` semantics; the claims
proved below do not depend on that case. -/
structure Avg5 where
  q : ℚ
  ted : ℚ
  concept_fraction : ℚ
  assessment_fraction : ℚ
  reading_fraction : ℚ
deriving DecidableEq

/-- RegimeChangeHead._average. -/
def favg (w : List FeatVec) : Avg5 :=
  ⟨(w.map FeatVec.q).sum / w.length,
   (w.map FeatVec.ted).sum / w.length,
   (w.map FeatVec.concept_fraction).sum / w.length,
   (w.map FeatVec.assessment_fraction).sum / w.length,
   (w.map FeatVec.reading_fraction).sum / w.length⟩

/-- The squared Euclidean distance of `RegimeChangeHead._l2_distance`
(before the final `** 0.5`). -/
def l2sq (a b : Avg5) : ℚ :=
  (a.q - b.q)^2 + (a.ted - b.ted)^2 + (a.concept_fraction - b.concept_fraction)^2
    + (a.assessment_fraction - b.assessment_fraction)^2
    + (a.reading_fraction - b.reading_fraction)^2

/-- The change decision `change_score >= threshold` where
`change_score = sqrt s` and `s ≥ 0` is the squared distance: equivalent to
`threshold ≤ 0 ∨ threshold^2 ≤ s`, stated without square roots. -/
def decideChange (s threshold : ℚ) : Bool :=
  if threshold ≤ 0 then true else decide (threshold^2 ≤ s)

/-- The mutable state of a `RegimeChangeHead`: the feature history and the
recorded change-point indices, both in append order. -/
structure RegimeState where
  history : List FeatVec
  changePoints : List ℕ
deriving DecidableEq

/-- RegimeChangeHead.per_step: append the feature vector; once at least
`2*window + 1` entries exist, compare the mean feature vectors of the `k`
entries before and after `center = len - 1 - window` and record `center`
when the distance reaches the threshold. -/
def regimeStep (window : ℕ) (threshold : ℚ) (st : RegimeState) (v : FeatVec) :
    RegimeState :=
  let hist := st.history ++ [v]
  if 2 * window + 1 ≤ hist.length then
    let center := hist.length - 1 - window
    let prevW := (hist.drop (center - window)).take window
    let nextW := (hist.drop (center + 1)).take window
    if prevW.length = window ∧ nextW.length = window then
      if decideChange (l2sq (favg prevW) (favg nextW)) threshold then
        ⟨hist, st.changePoints ++ [center]⟩
      else ⟨hist, st.changePoints⟩
    else ⟨hist, st.changePoints⟩
  else ⟨hist, st.changePoints⟩

/-- A whole course through `RegimeChangeHead.per_step`, from the state set
by `init_course`. -/
def regimeRun (window : ℕ) (threshold : ℚ) (vs : List FeatVec) : RegimeState :=
  vs.foldl (regimeStep window threshold) ⟨[], []⟩

/-- RegimeChangeHead.finalize_course: the change points and their count. -/
def regimeFinalize (st : RegimeState) : List ℕ × ℕ :=
  (st.changePoints, st.changePoints.length)

/-- An abstract deterministic pseudo-random generator with explicit state,
the model of `random.Random(seed)`: `random()` in `[0,1)`, `uniform(a,b)`
and `choice(seq)`, each returning the drawn value and the advanced state.
Python's Mersenne Twister is one instance; every claim proved about the
Monte-Carlo head holds for all of them. -/
structure Rng (S : Type) where
  random : S → ℚ × S
  uniform : ℚ → ℚ → S → ℚ × S
  choice : List Edge → S → Edge × S

/-- Python's `a or b or set()` over optional frames: the first operand that
is truthy (present and nonempty), else the empty set. -/
def pyOrFrame (a b : Option Frame) : Frame :=
  match a with
  | some s => if s = ∅ then (b.getD ∅) else s
  | none =>
    match b with
    | some s => s
    | none => ∅

/-- MonteCarloHead._drop_edges: keep each edge when a fresh `random()` draw
exceeds `rate` (edges visited in sorted order, one draw per edge); when
nothing survives and the input was nonempty, force-keep one `choice` of the
edges.  No draw is consumed when the input is empty or `rate ≤ 0`. -/
def mcDropEdges {S : Type} (rng : Rng S) (rate : ℚ) (edges : Frame) (s : S) :
    Frame × S :=
  if edges = ∅ ∨ rate ≤ 0 then (edges, s)
  else
    let kept :=
      (sortedEdges edges).foldl
        (fun (acc : Frame × S) e =>
          let r := rng.random acc.2
          (if rate < r.1 then insert e acc.1 else acc.1, r.2))
        (∅, s)
    if kept.1 = ∅ then
      let c := rng.choice (sortedEdges edges) kept.2
      ({c.1}, c.2)
    else kept

/-- MonteCarloHead._jitter_weights: scale each weight by a factor drawn
uniformly from `[1 - jitter, 1 + jitter]`, clamped at 0; the weights map is
an association list in dict iteration order.  No draw is consumed when the
map is empty or `jitter ≤ 0`. -/
def mcJitterWeights {S : Type} (rng : Rng S) (jitter : ℚ)
    (weights : List (ℤ × ℚ)) (s : S) : List (ℤ × ℚ) × S :=
  if weights = [] ∨ jitter ≤ 0 then (weights, s)
  else
    weights.foldl
      (fun (acc : List (ℤ × ℚ) × S) p =>
        let u := rng.uniform (-jitter) jitter acc.2
        (acc.1 ++ [(p.1, max 0 (p.2 * (1 + u.1)))], u.2))
      ([], s)

/-- MonteCarloHead._compute_q: sum the weights (default 1.0) of the
distinct incident nodes — the `seen` set makes the total independent of
edge iteration order — then `min(1, total / max(1, 2 * |seen|))`. -/
def mcComputeQ (edges : Frame) (weights : List (ℤ × ℚ)) : ℚ :=
  if edges = ∅ then 0
  else
    let seen := nodesOf edges
    let total := seen.sum (fun n => ((weights.lookup n).getD 1))
    if seen = ∅ then 0
    else min 1 (total / max 1 ((seen.card : ℚ) * 2))

/-- One Monte-Carlo sample: jitter the weights, subsample both frames, and
recompute the fallback q and ted, consuming random state in source order. -/
def mcSample {S : Type} (rng : Rng S) (dropout jitter : ℚ)
    (prevEdges currEdges : Frame) (weights : List (ℤ × ℚ)) (s : S) :
    (ℚ × ℚ) × S :=
  let jw := mcJitterWeights rng jitter weights s
  let sp := mcDropEdges rng dropout prevEdges jw.2
  let sc := mcDropEdges rng dropout currEdges sp.2
  ((mcComputeQ sc.1 jw.1, jaccardDistance sp.1 sc.1), sc.2)

/-- MonteCarloHead._stats: mean and standard deviation (population
variance, then `** 0.5`). -/
noncomputable def mcStats (values : List ℚ) : ℚ × ℝ :=
  if values = [] then (0, 0)
  else
    let mean := values.sum / (values.length : ℚ)
    let variance := (values.map (fun v => (v - mean)^2)).sum / (values.length : ℚ)
    (mean, Real.sqrt (variance : ℝ))

/-- The per-step extras emitted by `MonteCarloHead.per_step`. -/
structure McOut where
  q_mc_mean : ℚ
  q_mc_std : ℝ
  ted_mc_mean : ℚ
  ted_mc_std : ℝ

/-- MonteCarloHead.per_step on one step frame: `prev_cumulative` falling
back to the cached previous cumulative (Python `or` truthiness), then
`num_samples` samples, then the statistics; the returned state pairs the
random state with the updated `_prev_edges_cache`. -/
noncomputable def mcPerStep {S : Type} (rng : Rng S)
    (numSamples : ℕ) (dropout jitter : ℚ)
    (st : S × Option Frame) (prevCum : Option Frame) (cum : Frame)
    (weights : List (ℤ × ℚ)) : McOut × (S × Option Frame) :=
  let prevEdges := pyOrFrame prevCum st.2
  let samples :=
    (List.range numSamples).foldl
      (fun (acc : List ℚ × List ℚ × S) _ =>
        let out := mcSample rng dropout jitter prevEdges cum weights acc.2.2
        (acc.1 ++ [out.1.1], acc.2.1 ++ [out.1.2], out.2))
      ([], [], st.1)
  let qs := mcStats samples.1
  let ts := mcStats samples.2.1
  (⟨qs.1, qs.2, ts.1, ts.2⟩, (samples.2.2, some cum))

/-- A whole course through `MonteCarloHead.per_step`: one entry per step
(`prev_cumulative`, `cumulative_edges`, `node_weights`), threading the
random state and the previous-edges cache initialized by `init_course`. -/
noncomputable def mcRun {S : Type} (rng : Rng S)
    (numSamples : ℕ) (dropout jitter : ℚ) (s0 : S)
    (frames : List (Option Frame × Frame × List (ℤ × ℚ))) : List McOut :=
  (frames.foldl
    (fun (acc : List McOut × (S × Option Frame)) fr =>
      let out := mcPerStep rng numSamples dropout jitter acc.2 fr.1 fr.2.1 fr.2.2
      (acc.1 ++ [out.1], out.2))
    ([], (s0, none))).1

/-- Round-half-to-even of `1000 * x` for a real `x`, the `round(x, 3)` of
`_compute_spread` (the integer part; dividing by 1000 happens at the use
site). -/
noncomputable def rne3R (x : ℝ) : ℤ :=
  if Int.fract (1000 * x) < 1/2 then ⌊1000 * x⌋
  else if (1 : ℝ)/2 < Int.fract (1000 * x) then ⌊1000 * x⌋ + 1
  else if ⌊1000 * x⌋ % 2 = 0 then ⌊1000 * x⌋ else ⌊1000 * x⌋ + 1

/-- The Shannon entropy `-sum(p * log p for p in ps if p > 0)` of
`_compute_spread`; terms with `p ≤ 0` contribute nothing, matching the
`if p > 0` filter in the source. -/
noncomputable def spreadEntropy (ps : List ℝ) : ℝ :=
  -(ps.map (fun p => if 0 < p then p * Real.log p else 0)).sum

/-- DefaultSignalComputer._compute_spread on a list of connected
components: 0 for no components, a zero total or a single component, else
the Shannon entropy of the component-size distribution normalized by
`log k`, rounded to 3 decimals. -/
noncomputable def computeSpread (components : List (Finset ℤ)) : ℝ :=
  if components = [] then 0
  else if (components.map Finset.card).sum = 0 ∨ components.length = 1 then 0
  else
    ((rne3R (spreadEntropy (components.map (fun c =>
        (c.card : ℝ) / (((components.map Finset.card).sum : ℕ) : ℝ))) /
      Real.log (components.length : ℝ)) : ℤ) : ℝ) / 1000

/-- Default element used with `List.getD` over run outputs. -/
def dfltStep : Signals × ℚ := (⟨0, 0, 0, none⟩, 0)

/-- Scenario A of the spec: observed frames `{(0,1)}` then `{(0,1),(1,2)}`,
no truth frames, no step features. -/
def exScenarioA : List (Frame × Features) :=
  [({(0,1)}, Features.empty), ({(0,1),(1,2)}, Features.empty)]

/-- A featureless three-step course whose cumulative frames have sizes
1, 3 and 18, giving unrounded teds 0, 2/3 and 5/6. -/
def exC8 : List (Frame × Features) :=
  [({(0,1)}, Features.empty),
   ({(0,1),(1,2),(2,3)}, Features.empty),
   ({(3,4),(4,5),(5,6),(6,7),(7,8),(8,9),(9,10),(10,11),(11,12),(12,13),
     (13,14),(14,15),(15,16),(16,17),(17,18)}, Features.empty)]

/-- Scenario F of the spec: features `(q,ted,concept)=(0.3,0.1,0.4)` at
steps 0 and 1 and `(0.9,0.4,0.8)` at steps 2 and 3. -/
def exRegimeF : List FeatVec :=
  [⟨0, 3/10, 1/10, 2/5, 0, 0⟩, ⟨1, 3/10, 1/10, 2/5, 0, 0⟩,
   ⟨2, 9/10, 2/5, 4/5, 0, 0⟩, ⟨3, 9/10, 2/5, 4/5, 0, 0⟩]

/-- A concrete deterministic generator over a unit state, one instance of
`Rng` used to witness the Monte-Carlo determinism theorem. -/
def unitRng : Rng Unit :=
  ⟨fun _ => (0, ()), fun _ _ _ => (0, ()), fun l _ => (l.headD (0, 0), ())⟩

/-- Lower bound for round-half-to-even: an integer below the argument is
below the rounding. -/
theorem le_rne (x : ℚ) (n : ℤ) (h : (n : ℚ) ≤ x) : n ≤ rne x := by
  have h0 : n ≤ ⌊x⌋ := Int.le_floor.mpr h
  unfold rne
  split_ifs <;> omega

/-- Upper bound for round-half-to-even: an integer above the argument is
above the rounding. -/
theorem rne_le (x : ℚ) (n : ℤ) (h : x ≤ (n : ℚ)) : rne x ≤ n := by
  have hfl : ⌊x⌋ ≤ n := by
    have h1 := Int.floor_le_floor h
    simpa using h1
  have hkey : ¬ Int.fract x < 1/2 → ⌊x⌋ + 1 ≤ n := by
    intro h1
    have hfr : (1 : ℚ)/2 ≤ Int.fract x := le_of_not_lt h1
    have h4 : x - Int.fract x = (⌊x⌋ : ℚ) := Int.self_sub_fract x
    have h5 : (⌊x⌋ : ℚ) < (n : ℚ) := by linarith
    have h6 : ⌊x⌋ < n := by exact_mod_cast h5
    omega
  unfold rne
  split_ifs with h1 h2 h3
  · exact hfl
  · exact hkey h1
  · omega
  · exact hkey h1

/-- Rounding to three decimals preserves nonnegativity. -/
theorem round3_nonneg (x : ℚ) (h : 0 ≤ x) : 0 ≤ round3 x := by
  have h1 : (0 : ℤ) ≤ rne (1000 * x) := le_rne _ _ (by push_cast; linarith)
  unfold round3
  have h2 : (0 : ℚ) ≤ (rne (1000 * x) : ℚ) := by exact_mod_cast h1
  positivity

/-- Rounding to three decimals preserves being at most one. -/
theorem round3_le_one (x : ℚ) (h : x ≤ 1) : round3 x ≤ 1 := by
  have h1 : rne (1000 * x) ≤ 1000 := rne_le _ 1000 (by push_cast; linarith)
  unfold round3
  rw [div_le_one (by norm_num)]
  exact_mod_cast h1

/-- C1: running the two-step Scenario A course through the engine with the
identity policy and the insight reporter yields per-step signals
`t=0: q=0.08, ted=0, stability=1` and
`t=1: q=0.12, ted=0.5, stability=0.5, ted_delta=0.5`, and aggregates
`avg_q=0.1`, `avg_ted=0.25`, `avg_stability=0.75`. -/
theorem engine_scenarioA_run :
    runInsight exScenarioA =
      ([⟨2/25, 0, 1, none⟩, ⟨3/25, 1/2, 1/2, some (1/2)⟩],
       ⟨some (1/10), some (1/4), some (3/4)⟩) := by
  with_unfolding_all decide

/-- C3 counterexample: `CapacityPolicy(max_edges=0)` applied to the
observation `{(0,1)}` returns `{(0,1)}` itself, a nonempty frame — not the
empty predicted frame the claim states. -/
theorem capacity_zero_counterexample :
    capacityStep (some 0) none (1/2) none {(0,1)} = {(0,1)} ∧
      ({(0,1)} : Frame) ≠ (∅ : Frame) := by
  with_unfolding_all decide

/-- C3 amended: `max_edges=0` is falsy in the guard
`if not max_edges or max_edges <= 0`, so `CapacityPolicy(max_edges=0)`
behaves as unlimited capacity and returns a copy of the observed frame at
every step (empty only when the observation is empty). -/
theorem capacity_zero_returns_observation (maxNodes : Option ℤ) (sticky : ℚ)
    (prevPred : Option Frame) (obs : Frame) :
    capacityStep (some 0) maxNodes sticky prevPred obs = obs := by
  simp [capacityStep]

/-- C4 counterexample: constructing the engine with a registered adapter
and reporter but the unknown head name `"bogus_head"` succeeds (with no
heads instantiated) instead of failing with `UnknownHead`. -/
theorem unknown_head_counterexample :
    engineInitModel ["curriculum_stream"] ["insight"]
      "curriculum_stream" "insight" ["bogus_head"] = Except.ok [] := by
  rfl

/-- C4 amended: engine construction checks only the adapter and reporter
names; every unknown name in `core_config.heads` is silently dropped
(`HEAD_REGISTRY.get(name)` followed by `if cls:`), and construction
succeeds with exactly the registered head names, in declared order. -/
theorem unknown_heads_silently_ignored (adapters reporters : List String)
    (a r : String) (heads : List String)
    (ha : a ∈ adapters) (hr : r ∈ reporters) :
    engineInitModel adapters reporters a r heads =
      Except.ok (heads.filter (fun h => headRegistryNames.contains h)) := by
  simp [engineInitModel, ha, hr]

/-- Witness for the amended C4 theorem, at a concrete registry and head
list containing one known and one unknown name. -/
theorem unknown_heads_silently_ignored_witness :
    ("curriculum_stream" ∈ ["curriculum_stream"] : Prop) ∧
    ("insight" ∈ ["insight"] : Prop) ∧
    engineInitModel ["curriculum_stream"] ["insight"]
      "curriculum_stream" "insight" ["monte_carlo", "bogus_head"] =
      Except.ok ["monte_carlo"] := by
  refine ⟨by simp, by simp, ?_⟩
  rw [unknown_heads_silently_ignored _ _ _ _ _ (by simp) (by simp)]
  rfl

/-- C5: the Monte-Carlo head is deterministic — for every generator (any
deterministic `random.Random(seed)` is one), any configuration and any two
equal step-frame sequences, two runs produce identical per-step
`q_mc_mean`, `q_mc_std`, `ted_mc_mean` and `ted_mc_std` outputs. -/
theorem mc_two_run_determinism {S : Type} (rng : Rng S) (numSamples : ℕ)
    (dropout jitter : ℚ) (s0 : S)
    (frames1 frames2 : List (Option Frame × Frame × List (ℤ × ℚ)))
    (h : frames1 = frames2) :
    mcRun rng numSamples dropout jitter s0 frames1 =
      mcRun rng numSamples dropout jitter s0 frames2 := by
  rw [h]

/-- Witness for the Monte-Carlo determinism theorem at a concrete
generator, configuration and frame sequence. -/
theorem mc_two_run_determinism_witness :
    [((none : Option Frame), ({(0,1)} : Frame), ([] : List (ℤ × ℚ)))] =
      [((none : Option Frame), ({(0,1)} : Frame), ([] : List (ℤ × ℚ)))] ∧
    mcRun unitRng 16 (1/10) (1/10) ()
        [(none, {(0,1)}, [])] =
      mcRun unitRng 16 (1/10) (1/10) () [(none, {(0,1)}, [])] :=
  ⟨rfl, mc_two_run_determinism unitRng 16 (1/10) (1/10) () _ _ rfl⟩

/-- C6 counterexample: on the Scenario F course with `window=1`,
`threshold=0.05`, the head records change points at both centers 1 and 2
(the windows `{step1}` vs `{step3}` also differ by more than the
threshold), so `num_change_points` is 2, not 1 as the claim states. -/
theorem regime_scenarioF_counterexample :
    (regimeFinalize (regimeRun 1 (1/20) exRegimeF)).2 = 2 ∧ (2 : ℕ) ≠ 1 := by
  with_unfolding_all decide

/-- C6 amended: on the Scenario F course with `window=1`,
`threshold=0.05`, the finalized output has `change_points = [1, 2]` (in
particular containing index 1) and `num_change_points = 2`. -/
theorem regime_scenarioF_change_points :
    regimeFinalize (regimeRun 1 (1/20) exRegimeF) = ([1, 2], 2) := by
  with_unfolding_all decide

/-- C9: the reporter's quality guard is
`if aggregates.get("avg_q") and avg_q < 0.4`, so the reachable aggregate
`avg_q = 0.0` (here produced by a two-step course of empty frames) is
falsy and the "Quality is lagging" recommendation is NOT emitted even
though `0.0 < 0.4`; only the nominal message appears. -/
theorem avg_q_zero_no_lagging_rec :
    (runInsight [(∅, Features.empty), (∅, Features.empty)]).2.avg_q = some 0 ∧
    (0 : ℚ) < 2/5 ∧
    finishRecs (runInsight [(∅, Features.empty), (∅, Features.empty)]).2.avg_q
        (runInsight [(∅, Features.empty), (∅, Features.empty)]).2.avg_ted =
      ["System performing within expected ranges."] := by
  refine ⟨by with_unfolding_all decide, by norm_num, ?_⟩
  with_unfolding_all decide

/-- One regime step always appends the new feature vector to the history,
whatever the change decision. -/
theorem regimeStep_history (W : ℕ) (θ : ℚ) (st : RegimeState) (v : FeatVec) :
    (regimeStep W θ st v).history = st.history ++ [v] := by
  unfold regimeStep
  dsimp only
  split_ifs <;> rfl

/-- Folding regime steps grows the history by exactly the number of
processed feature vectors. -/
theorem regime_fold_history_length (W : ℕ) (θ : ℚ) (l : List FeatVec) :
    ∀ st : RegimeState,
      (l.foldl (regimeStep W θ) st).history.length = st.history.length + l.length := by
  induction l with
  | nil => intro st; simp
  | cons v rest ih =>
      intro st
      rw [List.foldl_cons, ih, regimeStep_history]
      simp
      omega

/-- Invariant of the regime fold: every recorded change point `i`
satisfies `W ≤ i` and `i + W + 1 ≤` the history length. -/
theorem regime_fold_bounds (W : ℕ) (θ : ℚ) (l : List FeatVec) :
    ∀ st : RegimeState,
      (∀ i ∈ st.changePoints, W ≤ i ∧ i + W + 1 ≤ st.history.length) →
      ∀ i ∈ (l.foldl (regimeStep W θ) st).changePoints,
        W ≤ i ∧ i + W + 1 ≤ (l.foldl (regimeStep W θ) st).history.length := by
  induction l with
  | nil => intro st hinv; simpa using hinv
  | cons v rest ih =>
      intro st hinv
      rw [List.foldl_cons]
      refine ih (regimeStep W θ st v) ?_
      intro j hj
      have hlen : (regimeStep W θ st v).history.length = st.history.length + 1 := by
        rw [regimeStep_history]; simp
      rw [hlen]
      unfold regimeStep at hj
      dsimp only at hj
      split_ifs at hj with h1 h2 h3
      · simp only [List.mem_append, List.mem_singleton] at hj
        rcases hj with hj | hj
        · have := hinv j hj; omega
        · subst hj
          simp only [List.length_append, List.length_singleton] at h1 ⊢
          omega
      · have := hinv j hj; omega
      · have := hinv j hj; omega
      · have := hinv j hj; omega

/-- C7: for every course of `T` steps and every window `W`,
`RegimeChangeHead(window=W)` never records a change point with index below
`W` or above `T - W - 1` (stated without truncated subtraction as
`idx + W + 1 ≤ T`). -/
theorem regime_change_point_bounds (W : ℕ) (θ : ℚ) (vs : List FeatVec) (idx : ℕ)
    (h : idx ∈ (regimeRun W θ vs).changePoints) :
    W ≤ idx ∧ idx + W + 1 ≤ vs.length := by
  have h1 := regime_fold_bounds W θ vs ⟨[], []⟩ (by simp) idx h
  have h2 := regime_fold_history_length W θ vs ⟨[], []⟩
  unfold regimeRun at h1
  simp only [h2] at h1
  simpa using h1

/-- Witness for the change-point bounds at the Scenario F course, whose
run records change point 1 with `W = 1` and `T = 4`. -/
theorem regime_change_point_bounds_witness :
    1 ∈ (regimeRun 1 (1/20) exRegimeF).changePoints ∧
      (1 ≤ 1 ∧ 1 + 1 + 1 ≤ exRegimeF.length) :=
  ⟨by with_unfolding_all decide,
   regime_change_point_bounds 1 (1/20) exRegimeF 1 (by with_unfolding_all decide)⟩

/-- The engine signal fold produces one output per input step. -/
theorem runFullAux_length (pc : Option Frame) (pt : Option ℚ)
    (inputs : List (Frame × Features)) :
    (runFullAux pc pt inputs).length = inputs.length := by
  induction inputs generalizing pc pt with
  | nil => rfl
  | cons x rest ih =>
      rcases x with ⟨obs, f⟩
      simp [runFullAux, ih]

/-- Invariant of the engine signal fold: the first output's `ted_delta`
is the incoming `_prev_ted` mapped through `round3 (ted - prev)`, and from
the second output on it is the rounded difference of consecutive UNROUNDED
teds (the second components). -/
theorem runFullAux_delta (inputs : List (Frame × Features)) :
    ∀ (pc : Option Frame) (pt : Option ℚ),
      (0 < inputs.length →
        ((runFullAux pc pt inputs).getD 0 dfltStep).1.ted_delta =
          pt.map (fun p =>
            round3 (((runFullAux pc pt inputs).getD 0 dfltStep).2 - p))) ∧
      (∀ t, t + 1 < inputs.length →
        ((runFullAux pc pt inputs).getD (t+1) dfltStep).1.ted_delta =
          some (round3 (((runFullAux pc pt inputs).getD (t+1) dfltStep).2 -
                        ((runFullAux pc pt inputs).getD t dfltStep).2))) := by
  induction inputs with
  | nil =>
      intro pc pt
      constructor
      · intro h; simp at h
      · intro t ht; simp at ht
  | cons x rest ih =>
      rcases x with ⟨obs, f⟩
      intro pc pt
      have hstep : runFullAux pc pt ((obs, f) :: rest) =
          computeStep pt ((pc.getD ∅) ∪ obs) pc f ::
            runFullAux (some ((pc.getD ∅) ∪ obs))
              (some ((computeStep pt ((pc.getD ∅) ∪ obs) pc f).2)) rest := rfl
      constructor
      · intro _
        rw [hstep]
        simp only [List.getD_cons_zero]
        rfl
      · intro t ht
        rw [hstep]
        simp only [List.getD_cons_succ]
        cases t with
        | zero =>
            have hrest : 0 < rest.length := by
              simp only [List.length_cons] at ht; omega
            have h0 := (ih (some ((pc.getD ∅) ∪ obs))
              (some ((computeStep pt ((pc.getD ∅) ∪ obs) pc f).2))).1 hrest
            simp only [Option.map_some] at h0
            simpa only [List.getD_cons_zero] using h0
        | succ s =>
            have hs : s + 1 < rest.length := by
              simp only [List.length_cons] at ht; omega
            exact (ih (some ((pc.getD ∅) ∪ obs))
              (some ((computeStep pt ((pc.getD ∅) ∪ obs) pc f).2))).2 s hs

/-- C8 counterexample: in the three-step course `exC8` the computer's
state keeps the UNROUNDED teds 2/3 then 5/6, so the emitted
`ted_delta = round(5/6 - 2/3, 3) = 0.167`, while the difference of the
REPORTED teds is `0.833 - 0.667 = 0.166` (already 3-decimal, so rounding
it is the identity): the claim's equation fails at step 2. -/
theorem ted_delta_rounding_counterexample :
    ((runFull exC8).getD 2 dfltStep).1.ted_delta = some (167/1000) ∧
    round3 (((runFull exC8).getD 2 dfltStep).1.ted -
            ((runFull exC8).getD 1 dfltStep).1.ted) = 166/1000 ∧
    ((167 : ℚ)/1000 ≠ 166/1000) := by
  refine ⟨by with_unfolding_all decide, by with_unfolding_all decide, by norm_num⟩

/-- C8 amended: at the first step `ted_delta` is absent, and at every step
`t ≥ 1` the emitted `ted_delta` equals the difference of the UNROUNDED TED
values of steps `t` and `t-1`, rounded to 3 decimals — which can differ by
one thousandth from the difference of the reported (rounded) teds. -/
theorem ted_delta_from_unrounded_ted (inputs : List (Frame × Features)) :
    (0 < (runFull inputs).length →
      ((runFull inputs).getD 0 dfltStep).1.ted_delta = none) ∧
    (∀ t, t + 1 < (runFull inputs).length →
      ((runFull inputs).getD (t+1) dfltStep).1.ted_delta =
        some (round3 (((runFull inputs).getD (t+1) dfltStep).2 -
                      ((runFull inputs).getD t dfltStep).2))) := by
  have hlen := runFullAux_length (none : Option Frame) (none : Option ℚ) inputs
  have h := runFullAux_delta inputs none none
  constructor
  · intro h0
    have h1 : 0 < inputs.length := by
      rw [← hlen]; exact h0
    have := h.1 h1
    simpa [runFull] using this
  · intro t ht
    have h1 : t + 1 < inputs.length := by
      rw [← hlen]; exact ht
    exact h.2 t h1

/-- Witness for the amended C8 theorem at the concrete course `exC8`. -/
theorem ted_delta_from_unrounded_ted_witness :
    (1 + 1 < (runFull exC8).length) ∧
    ((runFull exC8).getD 2 dfltStep).1.ted_delta =
      some (round3 (((runFull exC8).getD 2 dfltStep).2 -
                    ((runFull exC8).getD 1 dfltStep).2)) :=
  ⟨by with_unfolding_all decide,
   (ted_delta_from_unrounded_ted exC8).2 1 (by with_unfolding_all decide)⟩

/-- The filling loop only ever selects from its starting set and the
listed edges. -/
theorem fillUpTo_subset (b : ℕ) (l : List Edge) :
    ∀ sel : Frame, fillUpTo b l sel ⊆ sel ∪ l.toFinset := by
  induction l with
  | nil => intro sel; simp [fillUpTo]
  | cons e rest ih =>
      intro sel
      have hstep : fillUpTo b (e :: rest) sel =
          fillUpTo b rest (if b ≤ sel.card then sel else insert e sel) := rfl
      rw [hstep]
      refine subset_trans (ih _) ?_
      intro x hx
      simp only [Finset.mem_union, List.toFinset_cons, Finset.mem_insert] at hx ⊢
      split_ifs at hx with hb
      · tauto
      · simp only [Finset.mem_insert] at hx
        tauto

/-- The filling loop never exceeds its bound when it starts within it. -/
theorem fillUpTo_card_le (b : ℕ) (l : List Edge) :
    ∀ sel : Frame, sel.card ≤ b → (fillUpTo b l sel).card ≤ b := by
  induction l with
  | nil => intro sel h; simpa [fillUpTo] using h
  | cons e rest ih =>
      intro sel h
      have hstep : fillUpTo b (e :: rest) sel =
          fillUpTo b rest (if b ≤ sel.card then sel else insert e sel) := rfl
      rw [hstep]
      apply ih
      split_ifs with hb
      · exact h
      · have := Finset.card_insert_le e sel
        omega

/-- Sorting a frame reproduces exactly its edges. -/
theorem sortedEdges_toFinset (s : Frame) : (sortedEdges s).toFinset = s := by
  ext e
  simp [sortedEdges, Finset.mem_sort]

/-- The node-capacity fold only ever selects listed edges. -/
theorem enforce_fold_subset (mn : ℤ) (l : List Edge) :
    ∀ acc : Frame × (ℤ → ℕ),
      (l.foldl (enforceStep mn) acc).1 ⊆ acc.1 ∪ l.toFinset := by
  induction l with
  | nil => intro acc; simp
  | cons e rest ih =>
      intro acc
      rw [List.foldl_cons]
      refine subset_trans (ih (enforceStep mn acc e)) ?_
      have hstep : (enforceStep mn acc e).1 ⊆ insert e acc.1 := by
        unfold enforceStep
        split_ifs
        · exact Finset.subset_insert _ _
        · exact subset_rfl
      intro x hx
      simp only [Finset.mem_union, List.toFinset_cons, Finset.mem_insert] at hx ⊢
      rcases hx with hx | hx
      · have := hstep hx
        simp only [Finset.mem_insert] at this
        tauto
      · tauto

/-- The node-capacity filter only removes edges. -/
theorem enforceNodeCapacity_subset (mn : ℤ) (E : Frame) :
    enforceNodeCapacity mn E ⊆ E := by
  unfold enforceNodeCapacity
  split_ifs with h
  · exact subset_rfl
  · refine subset_trans (enforce_fold_subset mn (sortedEdges E) (∅, fun _ => 0)) ?_
    simp [sortedEdges_toFinset]

/-- On nonnegative arguments Python's `int()` truncation agrees with the
floor. -/
theorem pyTrunc_eq_floor (x : ℚ) (h : 0 ≤ x) : pyTrunc x = ⌊x⌋ := by
  rw [pyTrunc, Rat.floor_def]
  exact Int.tdiv_eq_ediv (Rat.num_nonneg.mpr h) (by positivity)

/-- Truncation of a nonnegative value below an integer stays below it. -/
theorem pyTrunc_le_int (x : ℚ) (m : ℤ) (h0 : 0 ≤ x) (h : x ≤ (m : ℚ)) :
    pyTrunc x ≤ m := by
  rw [pyTrunc_eq_floor x h0]
  have h1 := Int.floor_le_floor h
  simpa using h1

/-- The selection stage of the capacity policy picks only observed edges
(the kept edges are `prev ∩ obs` and the new edges are `obs - prev`). -/
theorem capacitySelect_subset (m : ℤ) (sticky : ℚ) (prev obs : Frame) :
    capacitySelect m sticky prev obs ⊆ obs := by
  have hi : (prev ∩ obs) ⊆ obs := Finset.inter_subset_right
  have hn : (obs \ prev) ⊆ obs := Finset.sdiff_subset
  have h1 : fillUpTo (pyTrunc (m * sticky)).toNat (sortedEdges (prev ∩ obs)) ∅ ⊆ obs := by
    refine subset_trans (fillUpTo_subset _ _ _) ?_
    rw [Finset.empty_union, sortedEdges_toFinset]
    exact hi
  have h2 : fillUpTo m.toNat (sortedEdges (obs \ prev))
      (fillUpTo (pyTrunc (m * sticky)).toNat (sortedEdges (prev ∩ obs)) ∅) ⊆ obs := by
    refine subset_trans (fillUpTo_subset _ _ _) ?_
    rw [sortedEdges_toFinset]
    exact Finset.union_subset h1 hn
  unfold capacitySelect
  dsimp only
  split_ifs with h
  · refine subset_trans (fillUpTo_subset _ _ _) ?_
    rw [sortedEdges_toFinset]
    exact Finset.union_subset h2 hi
  · exact h2

/-- The selection stage of the capacity policy respects the edge budget:
the sticky budget `int(max_edges * sticky_fraction)` is at most
`max_edges` for a sticky fraction in `[0, 1]`, and both filling loops are
bounded by `max_edges`. -/
theorem capacitySelect_card_le (m : ℤ) (sticky : ℚ) (prev obs : Frame)
    (hm : 0 < m) (h0 : 0 ≤ sticky) (h1 : sticky ≤ 1) :
    (capacitySelect m sticky prev obs).card ≤ m.toNat := by
  have hmq : (0 : ℚ) ≤ (m : ℚ) := by exact_mod_cast le_of_lt hm
  have hnn : (0 : ℚ) ≤ (m : ℚ) * sticky := mul_nonneg hmq h0
  have hle : (m : ℚ) * sticky ≤ (m : ℚ) := mul_le_of_le_one_right hmq h1
  have hss : (pyTrunc (m * sticky)).toNat ≤ m.toNat := by
    have h2 := pyTrunc_le_int _ m hnn hle
    omega
  have c1 : (fillUpTo (pyTrunc (m * sticky)).toNat (sortedEdges (prev ∩ obs)) ∅).card ≤
      (pyTrunc (m * sticky)).toNat :=
    fillUpTo_card_le _ _ _ (by simp)
  have c2 : (fillUpTo m.toNat (sortedEdges (obs \ prev))
      (fillUpTo (pyTrunc (m * sticky)).toNat (sortedEdges (prev ∩ obs)) ∅)).card ≤
      m.toNat :=
    fillUpTo_card_le _ _ _ (le_trans c1 hss)
  unfold capacitySelect
  dsimp only
  split_ifs with h
  · exact fillUpTo_card_le _ _ _ c2
  · exact c2

/-- C10: for every call of `CapacityPolicy.step` with `max_edges > 0`, any
previous prediction, any observation, any sticky fraction in `[0, 1]` and
any node capacity, the predicted frame is a subset of the current observed
frame (no stale edges from the previous prediction survive) and contains
at most `max_edges` edges. -/
theorem capacity_step_subset_and_card (m : ℤ) (hm : 0 < m)
    (maxNodes : Option ℤ) (sticky : ℚ) (h0 : 0 ≤ sticky) (h1 : sticky ≤ 1)
    (prevPred : Option Frame) (obs : Frame) :
    capacityStep (some m) maxNodes sticky prevPred obs ⊆ obs ∧
    ((capacityStep (some m) maxNodes sticky prevPred obs).card : ℤ) ≤ m := by
  have hsub : capacitySelect m sticky (prevPred.getD ∅) obs ⊆ obs :=
    capacitySelect_subset m sticky _ obs
  have hcard : (capacitySelect m sticky (prevPred.getD ∅) obs).card ≤ m.toNat :=
    capacitySelect_card_le m sticky _ obs hm h0 h1
  have hred : capacityStep (some m) maxNodes sticky prevPred obs =
      (match maxNodes with
       | none => capacitySelect m sticky (prevPred.getD ∅) obs
       | some mn =>
          if mn = 0 then capacitySelect m sticky (prevPred.getD ∅) obs
          else enforceNodeCapacity mn (capacitySelect m sticky (prevPred.getD ∅) obs)) := by
    simp only [capacityStep, if_neg (not_le.mpr hm)]
  rw [hred]
  rcases maxNodes with _ | mn
  · dsimp only
    exact ⟨hsub, by omega⟩
  · dsimp only
    split_ifs with hmn
    · exact ⟨hsub, by omega⟩
    · have he : enforceNodeCapacity mn (capacitySelect m sticky (prevPred.getD ∅) obs) ⊆
          capacitySelect m sticky (prevPred.getD ∅) obs :=
        enforceNodeCapacity_subset mn _
      have hc := Finset.card_le_card he
      exact ⟨subset_trans he hsub, by omega⟩

/-- Witness for the capacity bound at the spec's Scenario C inputs. -/
theorem capacity_step_subset_and_card_witness :
    ((0 : ℤ) < 3 ∧ (0 : ℚ) ≤ 1/2 ∧ (1 : ℚ)/2 ≤ 1) ∧
    (capacityStep (some 3) none (1/2) (some {(0,1),(1,2)}) {(0,1),(2,3),(3,4)} ⊆
        ({(0,1),(2,3),(3,4)} : Frame) ∧
      ((capacityStep (some 3) none (1/2) (some {(0,1),(1,2)})
          {(0,1),(2,3),(3,4)}).card : ℤ) ≤ 3) :=
  ⟨⟨by norm_num, by norm_num, by norm_num⟩,
   capacity_step_subset_and_card 3 (by norm_num) none (1/2) (by norm_num)
     (by norm_num) (some {(0,1),(1,2)}) {(0,1),(2,3),(3,4)}⟩

/-- Negation distributes over a mapped list sum. -/
theorem list_sum_neg_map {α : Type} (l : List α) (f : α → ℝ) :
    -((l.map f).sum) = (l.map (fun x => -(f x))).sum := by
  induction l with
  | nil => simp
  | cons x rest ih => simp [ih]; ring

/-- Termwise comparison of mapped list sums. -/
theorem list_map_sum_le {α : Type} (l : List α) (f g : α → ℝ)
    (h : ∀ x ∈ l, f x ≤ g x) : (l.map f).sum ≤ (l.map g).sum := by
  induction l with
  | nil => simp
  | cons x rest ih =>
      simp only [List.map_cons, List.sum_cons]
      have h1 := h x (by simp)
      have h2 := ih (fun y hy => h y (by simp [hy]))
      linarith

/-- A mapped list sum of nonnegative terms is nonnegative. -/
theorem list_map_sum_nonneg {α : Type} (l : List α) (f : α → ℝ)
    (h : ∀ x ∈ l, 0 ≤ f x) : 0 ≤ (l.map f).sum := by
  induction l with
  | nil => simp
  | cons x rest ih =>
      simp only [List.map_cons, List.sum_cons]
      have h1 := h x (by simp)
      have h2 := ih (fun y hy => h y (by simp [hy]))
      linarith

/-- Summing the affine map `p ↦ p * a + (b - p)` over a list. -/
theorem list_sum_affine {α : Type} (l : List α) (f : α → ℝ) (a b : ℝ) :
    (l.map (fun x => f x * a + (b - f x))).sum =
      (l.map f).sum * a + ((l.length : ℝ) * b - (l.map f).sum) := by
  induction l with
  | nil => simp
  | cons x rest ih =>
      simp only [List.map_cons, List.sum_cons, List.length_cons, ih]
      push_cast
      ring

/-- Dividing each mapped term by a constant divides the mapped sum. -/
theorem list_sum_map_div {α : Type} (l : List α) (f : α → ℝ) (d : ℝ) :
    (l.map (fun x => f x / d)).sum = (l.map f).sum / d := by
  induction l with
  | nil => simp
  | cons x rest ih => simp [ih, add_div]

/-- Lower bound for the real 3-decimal rounding integer. -/
theorem rne3R_nonneg (x : ℝ) (h : 0 ≤ x) : 0 ≤ rne3R x := by
  have h0 : (0 : ℤ) ≤ ⌊1000 * x⌋ := Int.le_floor.mpr (by push_cast; linarith)
  unfold rne3R
  split_ifs <;> omega

/-- Upper bound for the real 3-decimal rounding integer. -/
theorem rne3R_le_thousand (x : ℝ) (h : x ≤ 1) : rne3R x ≤ 1000 := by
  have hfl : ⌊1000 * x⌋ ≤ 1000 := by
    have h1 : ⌊1000 * x⌋ ≤ ⌊(1000 : ℝ)⌋ := Int.floor_le_floor (by linarith)
    simpa using h1
  have hkey : ¬ Int.fract (1000 * x) < 1/2 → ⌊1000 * x⌋ + 1 ≤ 1000 := by
    intro h1
    have hfr : (1 : ℝ)/2 ≤ Int.fract (1000 * x) := le_of_not_lt h1
    have h4 : 1000 * x - Int.fract (1000 * x) = (⌊1000 * x⌋ : ℝ) :=
      Int.self_sub_fract _
    have h5 : ((⌊1000 * x⌋ : ℤ) : ℝ) < ((1000 : ℤ) : ℝ) := by push_cast; linarith
    have h6 : ⌊1000 * x⌋ < 1000 := by exact_mod_cast h5
    omega
  unfold rne3R
  split_ifs with h1 h2 h3
  · exact hfl
  · exact hkey h1
  · omega
  · exact hkey h1

/-- The fallback quality estimate lies in `[0, 1]` whenever the
`weighted_node_mass` feature, if used, is nonnegative. -/
theorem fallback_quality_mem (obs : Frame) (f : Features)
    (hm : ∀ v ∈ f.weighted_node_mass, 0 ≤ v) :
    0 ≤ fallback_quality obs f ∧ fallback_quality obs f ≤ 1 := by
  have hnodes : (0 : ℚ) ≤ ((nodesOf obs).card : ℚ) / 25 := by positivity
  unfold fallback_quality
  split_ifs with h
  · norm_num
  · rcases hw : f.weighted_node_mass with _ | mass <;>
      rcases hu : f.unique_node_count with _ | unique <;>
      simp only
    · exact ⟨le_min (by norm_num) hnodes, min_le_left _ _⟩
    · exact ⟨le_min (by norm_num) hnodes, min_le_left _ _⟩
    · exact ⟨le_min (by norm_num) hnodes, min_le_left _ _⟩
    · have hmass : 0 ≤ mass := hm mass (by simp [hw])
      split_ifs with hu0
      · have hden : (0 : ℚ) < max 1 (unique * 2) := lt_of_lt_of_le one_pos (le_max_left _ _)
        exact ⟨le_min (by norm_num) (div_nonneg hmass (le_of_lt hden)), min_le_left _ _⟩
      · exact ⟨le_min (by norm_num) hnodes, min_le_left _ _⟩

/-- The clamped Jaccard distance lies in `[0, 1]`. -/
theorem jaccardDistance_mem (a b : Frame) :
    0 ≤ jaccardDistance a b ∧ jaccardDistance a b ≤ 1 := by
  unfold jaccardDistance
  split_ifs with h1 h2
  · norm_num
  · norm_num
  · exact ⟨le_max_left _ _, max_le (by norm_num) (min_le_left _ _)⟩

/-- The fallback ted lies in `[0, 1]`. -/
theorem fallback_ted_mem (obs : Frame) (prevObs : Option Frame) :
    0 ≤ fallback_ted obs prevObs ∧ fallback_ted obs prevObs ≤ 1 := by
  rcases prevObs with _ | prev
  · simp [fallback_ted]
  · exact jaccardDistance_mem obs prev


/-- The spread entropy is nonnegative when every probability lies in
`[0, 1]`: each summand `p * log p` is nonpositive there. -/
theorem spreadEntropy_nonneg (ps : List ℝ) (h01 : ∀ p ∈ ps, 0 ≤ p ∧ p ≤ 1) :
    0 ≤ spreadEntropy ps := by
  unfold spreadEntropy
  have h : (ps.map (fun p => if 0 < p then p * Real.log p else 0)).sum ≤ 0 := by
    have h0 := list_map_sum_le ps
      (fun p => if 0 < p then p * Real.log p else 0) (fun _ => (0 : ℝ)) ?_
    · simpa using h0
    · intro p hp
      dsimp only
      split_ifs with hp0
      · have hlog := Real.log_nonpos (h01 p hp).1 (h01 p hp).2
        nlinarith [(h01 p hp).1]
      · exact le_rfl
  linarith

/-- Gibbs bound for the spread entropy: over a nonnegative probability
list summing to 1 the entropy is at most the log of the list length
(termwise via `log y ≤ y - 1`). -/
theorem spreadEntropy_le_log (ps : List ℝ) (h0 : ∀ p ∈ ps, 0 ≤ p)
    (hsum : ps.sum = 1) (hk : 1 ≤ ps.length) :
    spreadEntropy ps ≤ Real.log ps.length := by
  have hkR : (1 : ℝ) ≤ (ps.length : ℝ) := by exact_mod_cast hk
  have hkpos : (0 : ℝ) < (ps.length : ℝ) := by linarith
  unfold spreadEntropy
  rw [list_sum_neg_map]
  have hterm_key : ∀ p ∈ ps,
      -(if 0 < p then p * Real.log p else 0) ≤
        p * Real.log ps.length + (1/(ps.length : ℝ) - p) := by
    intro p hp
    have hp0 := h0 p hp
    split_ifs with hppos
    · have hrecip : (0 : ℝ) < 1 / (p * (ps.length : ℝ)) := by positivity
      have hklog := Real.log_le_sub_one_of_pos hrecip
      have hlogeq : Real.log (1/(p * (ps.length : ℝ))) =
          -(Real.log p + Real.log (ps.length : ℝ)) := by
        rw [one_div, Real.log_inv,
          Real.log_mul (ne_of_gt hppos) (ne_of_gt hkpos)]
      rw [hlogeq] at hklog
      have h3 : p * (-(Real.log p + Real.log (ps.length : ℝ))) ≤
          p * (1/(p * (ps.length : ℝ)) - 1) :=
        mul_le_mul_of_nonneg_left hklog hp0
      have h4 : p * (1/(p * (ps.length : ℝ)) - 1) = 1/(ps.length : ℝ) - p := by
        field_simp
        ring
      rw [h4] at h3
      nlinarith
    · have hfrac : (0 : ℝ) ≤ 1/(ps.length : ℝ) := by positivity
      have hpz : p = 0 := le_antisymm (not_lt.mp hppos) hp0
      rw [hpz]
      simp only [neg_zero, zero_mul, zero_add, sub_zero]
      exact hfrac
  have h5 := list_map_sum_le ps
    (fun p => -(if 0 < p then p * Real.log p else 0))
    (fun p => p * Real.log ps.length + (1/(ps.length : ℝ) - p)) hterm_key
  have h6 := list_sum_affine ps (fun p => p) (Real.log ps.length) (1/(ps.length : ℝ))
  have h7 : (ps.map (fun p => p)).sum = 1 := by
    rw [List.map_id']
    exact hsum
  rw [h7] at h6
  have h8 : (ps.length : ℝ) * (1/(ps.length : ℝ)) = 1 := by
    field_simp
  have h9 : (ps.map (fun p => p * Real.log ps.length +
      (1/(ps.length : ℝ) - p))).sum = Real.log ps.length := by
    rw [h6, h8]
    ring
  rw [h9] at h5
  exact h5

/-- The normalized component entropy of `_compute_spread` lies in `[0, 1]`
for every components list. -/
theorem computeSpread_mem (comps : List (Finset ℤ)) :
    0 ≤ computeSpread comps ∧ computeSpread comps ≤ 1 := by
  unfold computeSpread
  split_ifs with h1 h2
  · norm_num
  · norm_num
  · rw [not_or] at h2
    obtain ⟨hT0, hk1⟩ := h2
    have hk0 : comps.length ≠ 0 := by
      intro hk
      exact h1 (List.length_eq_zero.mp hk)
    have hk2 : 2 ≤ comps.length := by omega
    have hTpos : 0 < (comps.map Finset.card).sum := Nat.pos_of_ne_zero hT0
    have hTR : (0 : ℝ) < (((comps.map Finset.card).sum : ℕ) : ℝ) := by
      exact_mod_cast hTpos
    have hkR : (1 : ℝ) < (comps.length : ℝ) := by exact_mod_cast hk2
    have hlogk : 0 < Real.log (comps.length : ℝ) := Real.log_pos hkR
    have hpos : ∀ p ∈ comps.map
        (fun c => (c.card : ℝ) / (((comps.map Finset.card).sum : ℕ) : ℝ)), 0 ≤ p := by
      intro p hp
      simp only [List.mem_map] at hp
      obtain ⟨c, _, rfl⟩ := hp
      positivity
    have hle1 : ∀ p ∈ comps.map
        (fun c => (c.card : ℝ) / (((comps.map Finset.card).sum : ℕ) : ℝ)), p ≤ 1 := by
      intro p hp
      simp only [List.mem_map] at hp
      obtain ⟨c, hc, rfl⟩ := hp
      rw [div_le_one hTR]
      have hmem : c.card ∈ comps.map Finset.card := List.mem_map_of_mem _ hc
      have hle := List.le_sum_of_mem hmem
      exact_mod_cast hle
    have hsum : (comps.map
        (fun c => (c.card : ℝ) / (((comps.map Finset.card).sum : ℕ) : ℝ))).sum = 1 := by
      rw [list_sum_map_div]
      have hcast : (comps.map (fun c => ((c.card : ℕ) : ℝ))).sum =
          (((comps.map Finset.card).sum : ℕ) : ℝ) := by
        rw [Nat.cast_list_sum, List.map_map]
        rfl
      rw [hcast]
      exact div_self (ne_of_gt hTR)
    have hlen : (comps.map
        (fun c => (c.card : ℝ) / (((comps.map Finset.card).sum : ℕ) : ℝ))).length =
        comps.length := List.length_map _ _
    have hent0 : 0 ≤ spreadEntropy (comps.map
        (fun c => (c.card : ℝ) / (((comps.map Finset.card).sum : ℕ) : ℝ))) :=
      spreadEntropy_nonneg _ (fun p hp => ⟨hpos p hp, hle1 p hp⟩)
    have hentle : spreadEntropy (comps.map
        (fun c => (c.card : ℝ) / (((comps.map Finset.card).sum : ℕ) : ℝ))) ≤
        Real.log (comps.length : ℝ) := by
      have := spreadEntropy_le_log _ hpos hsum (by rw [hlen]; omega)
      rwa [hlen] at this
    have hr0 : 0 ≤ spreadEntropy (comps.map
        (fun c => (c.card : ℝ) / (((comps.map Finset.card).sum : ℕ) : ℝ))) /
        Real.log (comps.length : ℝ) := div_nonneg hent0 (le_of_lt hlogk)
    have hr1 : spreadEntropy (comps.map
        (fun c => (c.card : ℝ) / (((comps.map Finset.card).sum : ℕ) : ℝ))) /
        Real.log (comps.length : ℝ) ≤ 1 := (div_le_one hlogk).mpr hentle
    constructor
    · have hrne := rne3R_nonneg _ hr0
      exact div_nonneg (by exact_mod_cast hrne) (by norm_num)
    · rw [div_le_one (by norm_num : (0:ℝ) < 1000)]
      have hrne := rne3R_le_thousand _ hr1
      exact_mod_cast hrne

/-- C2 counterexample: a step whose `step_features` supply `quality = 2`
is passed through unclamped by the signal computer, so the reported `q`
is 2, outside `[0, 1]` — the claim fails for arbitrary feature maps. -/
theorem signals_range_counterexample :
    (computeStep none ∅ none ⟨some 2, none, none, none, none⟩).1.q = 2 ∧
    ¬ ((computeStep none ∅ none ⟨some 2, none, none, none, none⟩).1.q ≤ 1) := by
  with_unfolding_all decide

/-- C2 amended: the signal computer's outputs `q`, `ted` and `stability`
lie in `[0, 1]` for every observation, previous observation and retained
state, PROVIDED the directly supplied `quality`, `ted` and `stability`
features (when present) lie in `[0, 1]` and the `weighted_node_mass`
feature (when present) is nonnegative — the computer forwards those
features unclamped; all fallback values are clamped by construction.  The
spread value is in `[0, 1]` unconditionally, for every components list. -/
theorem signals_range_of_bounded_features (prevTed : Option ℚ) (obs : Frame)
    (prevObs : Option Frame) (f : Features)
    (hq : ∀ v ∈ f.quality, 0 ≤ v ∧ v ≤ 1)
    (ht : ∀ v ∈ f.ted, 0 ≤ v ∧ v ≤ 1)
    (hs : ∀ v ∈ f.stability, 0 ≤ v ∧ v ≤ 1)
    (hm : ∀ v ∈ f.weighted_node_mass, 0 ≤ v) :
    (0 ≤ (computeStep prevTed obs prevObs f).1.q ∧
      (computeStep prevTed obs prevObs f).1.q ≤ 1) ∧
    (0 ≤ (computeStep prevTed obs prevObs f).1.ted ∧
      (computeStep prevTed obs prevObs f).1.ted ≤ 1) ∧
    (0 ≤ (computeStep prevTed obs prevObs f).1.stability ∧
      (computeStep prevTed obs prevObs f).1.stability ≤ 1) ∧
    (∀ comps : List (Finset ℤ),
      0 ≤ computeSpread comps ∧ computeSpread comps ≤ 1) := by
  have hqv : 0 ≤ (match f.quality with
        | some v => v
        | none => fallback_quality obs f) ∧
      (match f.quality with
        | some v => v
        | none => fallback_quality obs f) ≤ 1 := by
    rcases hqf : f.quality with _ | v
    · simpa using fallback_quality_mem obs f hm
    · simpa using hq v (by simp [hqf])
  have htv : 0 ≤ (match f.ted with
        | some v => v
        | none => fallback_ted obs prevObs) ∧
      (match f.ted with
        | some v => v
        | none => fallback_ted obs prevObs) ≤ 1 := by
    rcases htf : f.ted with _ | v
    · simpa using fallback_ted_mem obs prevObs
    · simpa using ht v (by simp [htf])
  have hsv : 0 ≤ (match f.stability with
        | some v => v
        | none => max 0 (min 1 (1 - (match f.ted with
            | some v => v
            | none => fallback_ted obs prevObs))) ) ∧
      (match f.stability with
        | some v => v
        | none => max 0 (min 1 (1 - (match f.ted with
            | some v => v
            | none => fallback_ted obs prevObs))) ) ≤ 1 := by
    rcases hsf : f.stability with _ | v
    · constructor
      · exact le_max_left _ _
      · exact max_le (by norm_num) (min_le_left _ _)
    · simpa using hs v (by simp [hsf])
  refine ⟨?_, ?_, ?_, computeSpread_mem⟩
  · have hq1 : (computeStep prevTed obs prevObs f).1.q =
        round3 (match f.quality with
          | some v => v
          | none => fallback_quality obs f) := rfl
    rw [hq1]
    exact ⟨round3_nonneg _ hqv.1, round3_le_one _ hqv.2⟩
  · have ht1 : (computeStep prevTed obs prevObs f).1.ted =
        round3 (match f.ted with
          | some v => v
          | none => fallback_ted obs prevObs) := rfl
    rw [ht1]
    exact ⟨round3_nonneg _ htv.1, round3_le_one _ htv.2⟩
  · have hs1 : (computeStep prevTed obs prevObs f).1.stability =
        round3 (match f.stability with
          | some v => v
          | none => max 0 (min 1 (1 - (match f.ted with
              | some v => v
              | none => fallback_ted obs prevObs)))) := rfl
    rw [hs1]
    exact ⟨round3_nonneg _ hsv.1, round3_le_one _ hsv.2⟩

/-- Witness for the amended signal-range theorem at a concrete step with
no supplied features. -/
theorem signals_range_of_bounded_features_witness :
    ((∀ v ∈ Features.empty.quality, 0 ≤ v ∧ v ≤ 1) ∧
     (∀ v ∈ Features.empty.ted, 0 ≤ v ∧ v ≤ 1) ∧
     (∀ v ∈ Features.empty.stability, 0 ≤ v ∧ v ≤ 1) ∧
     (∀ v ∈ Features.empty.weighted_node_mass, 0 ≤ v)) ∧
    ((0 ≤ (computeStep none {(0,1)} none Features.empty).1.q ∧
       (computeStep none {(0,1)} none Features.empty).1.q ≤ 1) ∧
     (0 ≤ (computeStep none {(0,1)} none Features.empty).1.ted ∧
       (computeStep none {(0,1)} none Features.empty).1.ted ≤ 1) ∧
     (0 ≤ (computeStep none {(0,1)} none Features.empty).1.stability ∧
       (computeStep none {(0,1)} none Features.empty).1.stability ≤ 1) ∧
     (∀ comps : List (Finset ℤ),
       0 ≤ computeSpread comps ∧ computeSpread comps ≤ 1)) :=
  ⟨⟨by simp [Features.empty], by simp [Features.empty], by simp [Features.empty],
    by simp [Features.empty]⟩,
   signals_range_of_bounded_features none {(0,1)} none Features.empty
     (by simp [Features.empty]) (by simp [Features.empty])
     (by simp [Features.empty]) (by simp [Features.empty])⟩
